import Mathlib

/-!
Verification of the Threlte context module (`createThrelteContext`) and of the
spec's dependency-resolution contract for the frame scheduler.

The first part shallowly embeds the invalidation / render-gate / disposal
state of `ThrelteInternalContext` as a Lean structure with pure state-passing
functions transliterated from the source.  The second part models the
before/after dependency-resolution algorithm described in the spec (the
scheduler sources are not part of this tree, only their caller is).
-/

namespace Threlte

/-- Render mode of the Threlte context: `'always' | 'on-demand' | 'manual'`. -/
inductive RenderMode where
  | always
  | onDemand
  | manual
deriving DecidableEq, Repr

/-- The mutable internal context of a Threlte app (`ThrelteInternalContext`).
`autoInvalidations : Set<unknown>` is modelled by the list of its elements,
`disposableObjects : Map<DisposableThreeObject, number>` by an association
list from object identifiers to signed counts (JS numbers are modelled as
`Int` so that non-negativity of the counts is a real statement). -/
structure ThrelteInternalContext where
  frameInvalidated : Bool
  advance : Bool
  autoInvalidations : List Nat
  disposableObjects : List (Nat × Int)
  shouldDispose : Bool
deriving DecidableEq, Repr

/-- The initial internal context built by `createThrelteContext` when no parent
context exists: `frameInvalidated: true`, `advance: false`, empty set, empty
map, `shouldDispose: false`. -/
def initialInternalCtx : ThrelteInternalContext :=
  { frameInvalidated := true
    advance := false
    autoInvalidations := []
    disposableObjects := []
    shouldDispose := false }

/-- Transliteration of `shouldRender`: the render mode is read from the
`renderMode` store and the flags from the internal context. -/
def shouldRender (renderMode : RenderMode) (ctx : ThrelteInternalContext) : Bool :=
  decide (renderMode = RenderMode.always) ||
  (decide (renderMode = RenderMode.onDemand) &&
    (ctx.frameInvalidated || decide (0 < ctx.autoInvalidations.length))) ||
  (decide (renderMode = RenderMode.manual) && ctx.advance)

/-- Transliteration of `resetFrameInvalidation`: sets `frameInvalidated` and
`advance` to `false`. -/
def resetFrameInvalidation (ctx : ThrelteInternalContext) : ThrelteInternalContext :=
  { ctx with frameInvalidated := false, advance := false }

/-- Transliteration of `ctx.invalidate`: sets `frameInvalidated` to `true`. -/
def invalidate (ctx : ThrelteInternalContext) : ThrelteInternalContext :=
  { ctx with frameInvalidated := true }

/-- Transliteration of `ctx.advance`: sets the `advance` flag to `true`. -/
def advance (ctx : ThrelteInternalContext) : ThrelteInternalContext :=
  { ctx with advance := true }

/-- The gate callback of the render stage,
`callback(_, runTasks) { if (shouldRender()) runTasks() }`, embedded with
explicit effects: `runTasks` is a transformer of an abstract task state `σ`,
and the callback returns the (untouched) internal context together with the
resulting task state.  The delta-time argument is ignored by the source. -/
def renderStageCallback {σ : Type} (mode : RenderMode) (ctx : ThrelteInternalContext)
    (delta : Int) (runTasks : σ → σ) (s : σ) : ThrelteInternalContext × σ :=
  if shouldRender mode ctx then (ctx, runTasks s) else (ctx, s)

/-- Call-with-state view of `shouldRender`: the source body is a single pure
expression over the context fields, so the embedded call returns the context
unchanged next to the decision. -/
def shouldRenderCall (renderMode : RenderMode) (ctx : ThrelteInternalContext) :
    Bool × ThrelteInternalContext :=
  (shouldRender renderMode ctx, ctx)

/-! ### Disposal bookkeeping -/

/-- JS-Map `get` on the association list model: the value of the first entry
with the given key, if any. -/
def mapGet (m : List (Nat × Int)) (k : Nat) : Option Int :=
  (m.find? (fun p => p.1 == k)).map (fun p => p.2)

/-- JS-Map `set` on the association list model: update the entry in place when
the key is present (keeping insertion order), otherwise append a new entry. -/
def mapSet (m : List (Nat × Int)) (k : Nat) (v : Int) : List (Nat × Int) :=
  if m.any (fun p => p.1 == k) then
    m.map (fun p => if p.1 == k then (k, v) else p)
  else m ++ [(k, v)]

/-- JS truthiness of `number | undefined`: defined and not zero. -/
def truthyCount : Option Int → Bool
  | none => false
  | some v => v != 0

/-- The body of the `forEach` in `addDisposableObjects` for one object:
`if (currentValue) set(obj, currentValue + 1) else set(obj, 1)`. -/
def addOne (m : List (Nat × Int)) (obj : Nat) : List (Nat × Int) :=
  let currentValue := mapGet m obj
  if truthyCount currentValue then
    mapSet m obj (currentValue.getD 0 + 1)
  else
    mapSet m obj 1

/-- Transliteration of `addDisposableObjects`. -/
def addDisposableObjects (ctx : ThrelteInternalContext) (objects : List Nat) :
    ThrelteInternalContext :=
  { ctx with disposableObjects := objects.foldl addOne ctx.disposableObjects }

/-- The body of the `forEach` in `removeDisposableObjects` for one object:
`if (currentValue && currentValue > 0) set(obj, currentValue - 1)`. -/
def removeOne (m : List (Nat × Int)) (obj : Nat) : List (Nat × Int) :=
  let currentValue := mapGet m obj
  if truthyCount currentValue && decide (0 < currentValue.getD 0) then
    mapSet m obj (currentValue.getD 0 - 1)
  else m

/-- Transliteration of `removeDisposableObjects`: an empty argument list is an
early return; otherwise each count is conditionally decremented and
`shouldDispose` is set. -/
def removeDisposableObjects (ctx : ThrelteInternalContext) (objects : List Nat) :
    ThrelteInternalContext :=
  if objects.length = 0 then ctx
  else
    { ctx with
      disposableObjects := objects.foldl removeOne ctx.disposableObjects
      shouldDispose := true }

/-- Transliteration of `dispose(force)`: an early return when neither
`shouldDispose` nor `force` is set; otherwise every entry with count zero (or
every entry, under `force`) is disposed and deleted, and `shouldDispose` is
cleared. -/
def dispose (ctx : ThrelteInternalContext) (force : Bool) : ThrelteInternalContext :=
  if !ctx.shouldDispose && !force then ctx
  else
    { ctx with
      disposableObjects := ctx.disposableObjects.filter (fun p => !(p.2 == 0 || force))
      shouldDispose := false }

/-- A call to either of the two reference-count mutators. -/
inductive DisposalOp where
  | add (objects : List Nat)
  | remove (objects : List Nat)
deriving Repr

/-- Apply one disposal-map mutator call. -/
def applyDisposalOp (ctx : ThrelteInternalContext) : DisposalOp → ThrelteInternalContext
  | DisposalOp.add objects => addDisposableObjects ctx objects
  | DisposalOp.remove objects => removeDisposableObjects ctx objects

/-- Apply a sequence of disposal-map mutator calls. -/
def applyDisposalOps (ctx : ThrelteInternalContext) (ops : List DisposalOp) :
    ThrelteInternalContext :=
  ops.foldl applyDisposalOp ctx

/-- Invariant of the disposal map: all counts are non-negative and the keys
are pairwise distinct (JS `Map` keys are unique). -/
def DisposalInv (m : List (Nat × Int)) : Prop :=
  (∀ p ∈ m, 0 ≤ p.2) ∧ (m.map Prod.fst).Nodup

/-! ### Dependency resolution (spec §4.1)

The frame-scheduling sources (`Scheduler`, `Stage`, `Task`) are not part of
this tree; only their caller is.  The shared before/after order-resolution
algorithm is therefore modelled from the spec. -/

/-- Modelled from the spec: a schedulable item (Task or Stage) with its `key`
and its `before` / `after` constraint key sets.  The missing source is the
`frame-scheduling` module imported by `createThrelteContext`. -/
structure SchedItem where
  key : Nat
  before : List Nat
  after : List Nat
deriving DecidableEq, Repr

/-- Registration-ordered list of the keys of a collection of items. -/
def keys (items : List SchedItem) : List Nat :=
  items.map (fun it => it.key)

/-- Modelled from the spec: the edge `u → v` ("u must precede v") of the
dependency graph.  An edge `B → A` exists for a constraint "A after B" and an
edge `A → B` for "A before B"; a constraint naming a key not present in the
collection is ignored. -/
def hasEdge (items : List SchedItem) (u v : Nat) : Bool :=
  items.any (fun it => it.key == v && it.after.contains u && (keys items).contains u) ||
  items.any (fun it => it.key == u && it.before.contains v && (keys items).contains v)

/-- Tests whether `v` still has an unprocessed predecessor among `remaining`. -/
def hasIncoming (items : List SchedItem) (remaining : List Nat) (v : Nat) : Bool :=
  remaining.any (fun u => hasEdge items u v)

/-- Bounded reachability along a boolean edge relation, with intermediate
nodes drawn from `nodes`: `reachB E nodes n u v` holds when a path of between
`1` and `n + 1` edges leads from `u` to `v`. -/
def reachB (E : Nat → Nat → Bool) (nodes : List Nat) : Nat → Nat → Nat → Bool
  | 0, u, v => E u v
  | n + 1, u, v => E u v || nodes.any (fun w => E u w && reachB E nodes n w v)

/-- Modelled from the spec: the key reported by the `CyclicDependency` error,
a key of the stuck set that lies on a cycle. -/
def cycleKey (items : List SchedItem) (remaining : List Nat) : Nat :=
  match remaining.find? (fun k => reachB (hasEdge items) remaining remaining.length k k) with
  | some k => k
  | none => remaining.headD 0

/-- Modelled from the spec: one Kahn-style elimination pass with stable
(first-registered-first) tie-breaking.  Each round emits the first remaining
key without an unprocessed predecessor; when no such key exists the pass fails
with the key of a participant of a cycle.  `fuel` only bounds the recursion
and never runs out when it starts at the number of keys, since every round
removes exactly one key. -/
def kahnAux (items : List SchedItem) : Nat → List Nat → Except Nat (List Nat)
  | _, [] => Except.ok []
  | 0, r :: rs => Except.error (cycleKey items (r :: rs))
  | fuel + 1, r :: rs =>
    match (r :: rs).find? (fun v => !hasIncoming items (r :: rs) v) with
    | some v =>
      Except.map (fun order => v :: order) (kahnAux items fuel ((r :: rs).erase v))
    | none => Except.error (cycleKey items (r :: rs))

/-- Modelled from the spec: the order-resolution entry point shared by `Stage`
(over tasks) and `Scheduler` (over stages).  On success it returns the
resolved key sequence, on a cycle it fails with a participating key. -/
def resolve (items : List SchedItem) : Except Nat (List Nat) :=
  kahnAux items (keys items).length (keys items)

/-- Modelled from the spec: resolution against a previously cached valid
order; on a `CyclicDependency` failure the cached order is retained and the
error key is surfaced. -/
def resolveWithCache (items : List SchedItem) (cached : List Nat) :
    List Nat × Option Nat :=
  match resolve items with
  | Except.ok order => (order, none)
  | Except.error k => (cached, some k)

/-- Two tasks, the second declared `after` the first: an acyclic example. -/
def exC3 : List SchedItem := [⟨1, [], []⟩, ⟨2, [], [1]⟩]

/-- The cyclic pair of the spec scenario: A after B together with B after A. -/
def exC4 : List SchedItem := [⟨1, [], [2]⟩, ⟨2, [], [1]⟩]

/-- Three items where the first must run after the third: items 1 and 2 are
unrelated, yet the resolved order cannot keep 1 before 2. -/
def exC5 : List SchedItem := [⟨1, [], [3]⟩, ⟨2, [], []⟩, ⟨3, [], []⟩]

/-- The remove-and-re-add scenario: tasks a, c, b (b re-registered last), all
unconstrained. -/
def exC5w : List SchedItem := [⟨1, [], []⟩, ⟨3, [], []⟩, ⟨2, [], []⟩]

/-- C1: `shouldRender()` returns `true` exactly when the mode is `always`, or
the mode is `on-demand` and the frame is invalidated or some auto-invalidation
is held, or the mode is `manual` and the advance flag is set. -/
theorem C1_shouldRender_iff (m : RenderMode) (ctx : ThrelteInternalContext) :
    shouldRender m ctx = true ↔
      m = RenderMode.always ∨
      (m = RenderMode.onDemand ∧
        (ctx.frameInvalidated = true ∨ ctx.autoInvalidations ≠ [])) ∨
      (m = RenderMode.manual ∧ ctx.advance = true) := by
  cases m <;>
    simp [shouldRender, List.length_pos_iff_ne_nil]

/-- C2: instrumenting `runTasks` with an invocation counter, the render-stage
gate invokes it exactly once when `shouldRender()` is true and not at all when
it is false; in particular in `manual` mode with the advance flag unset the
tasks never run, and in `always` mode they run on every frame. -/
theorem C2_gate_invocation_count (mode : RenderMode) (ctx : ThrelteInternalContext)
    (delta : Int) :
    (renderStageCallback mode ctx delta Nat.succ 0).2 =
      (if shouldRender mode ctx then 1 else 0) ∧
    (renderStageCallback RenderMode.manual { ctx with advance := false }
      delta Nat.succ 0).2 = 0 ∧
    (renderStageCallback RenderMode.always ctx delta Nat.succ 0).2 = 1 := by
  refine ⟨?_, ?_, ?_⟩
  · by_cases h : shouldRender mode ctx <;> simp [renderStageCallback, h]
  · simp [renderStageCallback, shouldRender]
  · simp [renderStageCallback, shouldRender]

/-- C6: `shouldRender` is deterministic and side-effect free: its decision
depends only on the render mode and the three invalidation fields (two
contexts agreeing on those fields yield the same boolean), and a call leaves
the context unchanged, so repeated calls within a frame agree. -/
theorem C6_shouldRender_pure (m : RenderMode) (c c' : ThrelteInternalContext)
    (h1 : c.frameInvalidated = c'.frameInvalidated)
    (h2 : c.advance = c'.advance)
    (h3 : c.autoInvalidations = c'.autoInvalidations) :
    shouldRender m c = shouldRender m c' ∧
    (shouldRenderCall m c).2 = c ∧
    (shouldRenderCall m ((shouldRenderCall m c).2)).1 = (shouldRenderCall m c).1 := by
  refine ⟨?_, rfl, rfl⟩
  simp [shouldRender, h1, h2, h3]

/-- Witness for C6 at concrete contexts differing only in a non-flag field. -/
theorem C6_shouldRender_pure_witness :
    shouldRender RenderMode.onDemand initialInternalCtx =
      shouldRender RenderMode.onDemand { initialInternalCtx with shouldDispose := true } ∧
    (shouldRenderCall RenderMode.onDemand initialInternalCtx).2 = initialInternalCtx ∧
    (shouldRenderCall RenderMode.onDemand
      ((shouldRenderCall RenderMode.onDemand initialInternalCtx).2)).1 =
      (shouldRenderCall RenderMode.onDemand initialInternalCtx).1 :=
  C6_shouldRender_pure RenderMode.onDemand initialInternalCtx
    { initialInternalCtx with shouldDispose := true } rfl rfl rfl

/-- C7: the render-stage gate never modifies the internal context (only the
task state may change through `runTasks`), and one call to
`resetFrameInvalidation` sets `frameInvalidated` and `advance` to `false`
while leaving every other field unchanged. -/
theorem C7_gate_preserves_flags {σ : Type} (mode : RenderMode)
    (ctx : ThrelteInternalContext) (delta : Int) (runTasks : σ → σ) (s : σ) :
    (renderStageCallback mode ctx delta runTasks s).1 = ctx ∧
    (resetFrameInvalidation ctx).frameInvalidated = false ∧
    (resetFrameInvalidation ctx).advance = false ∧
    (resetFrameInvalidation ctx).autoInvalidations = ctx.autoInvalidations ∧
    (resetFrameInvalidation ctx).disposableObjects = ctx.disposableObjects ∧
    (resetFrameInvalidation ctx).shouldDispose = ctx.shouldDispose := by
  refine ⟨?_, rfl, rfl, rfl, rfl, rfl⟩
  by_cases h : shouldRender mode ctx <;> simp [renderStageCallback, h]

/-- C8: `resetFrameInvalidation` leaves `autoInvalidations` unchanged, so with
a non-empty auto-invalidation set, `shouldRender` in `on-demand` mode is still
true immediately after the frame-boundary reset. -/
theorem C8_reset_keeps_autoInvalidations (ctx : ThrelteInternalContext)
    (h : ctx.autoInvalidations ≠ []) :
    (resetFrameInvalidation ctx).autoInvalidations = ctx.autoInvalidations ∧
    shouldRender RenderMode.onDemand (resetFrameInvalidation ctx) = true := by
  refine ⟨rfl, ?_⟩
  simp [shouldRender, resetFrameInvalidation, List.length_pos_iff_ne_nil, h]

/-- Witness for C8 at a context holding one auto-invalidation. -/
theorem C8_reset_keeps_autoInvalidations_witness :
    (resetFrameInvalidation { initialInternalCtx with autoInvalidations := [7] }).autoInvalidations
      = ({ initialInternalCtx with autoInvalidations := [7] } :
          ThrelteInternalContext).autoInvalidations ∧
    shouldRender RenderMode.onDemand
      (resetFrameInvalidation { initialInternalCtx with autoInvalidations := [7] }) = true :=
  C8_reset_keeps_autoInvalidations { initialInternalCtx with autoInvalidations := [7] }
    (by simp)

/-- C9: `invalidate()` and `advance()` are mode-isolated: from a state where
the gate decision is false, `invalidate` alone keeps it false in `manual` mode
and `advance` alone keeps it false in `on-demand` mode; each sets exactly its
one flag and leaves every other field unchanged. -/
theorem C9_invalidate_advance_isolated (ctx : ThrelteInternalContext)
    (h1 : shouldRender RenderMode.manual ctx = false)
    (h2 : shouldRender RenderMode.onDemand ctx = false) :
    shouldRender RenderMode.manual (invalidate ctx) = false ∧
    shouldRender RenderMode.onDemand (advance ctx) = false ∧
    (invalidate ctx).frameInvalidated = true ∧
    (invalidate ctx).advance = ctx.advance ∧
    (invalidate ctx).autoInvalidations = ctx.autoInvalidations ∧
    (invalidate ctx).disposableObjects = ctx.disposableObjects ∧
    (invalidate ctx).shouldDispose = ctx.shouldDispose ∧
    (advance ctx).advance = true ∧
    (advance ctx).frameInvalidated = ctx.frameInvalidated ∧
    (advance ctx).autoInvalidations = ctx.autoInvalidations ∧
    (advance ctx).disposableObjects = ctx.disposableObjects ∧
    (advance ctx).shouldDispose = ctx.shouldDispose := by
  simp only [shouldRender, invalidate, advance] at h1 h2 ⊢
  simp_all

/-- Witness for C9 at the fresh context with the frame flag cleared. -/
theorem C9_invalidate_advance_isolated_witness :
    shouldRender RenderMode.manual
      (invalidate { initialInternalCtx with frameInvalidated := false }) = false ∧
    shouldRender RenderMode.onDemand
      (advance { initialInternalCtx with frameInvalidated := false }) = false ∧
    (invalidate { initialInternalCtx with frameInvalidated := false }).frameInvalidated = true ∧
    (invalidate { initialInternalCtx with frameInvalidated := false }).advance =
      ({ initialInternalCtx with frameInvalidated := false } :
        ThrelteInternalContext).advance ∧
    (invalidate { initialInternalCtx with frameInvalidated := false }).autoInvalidations =
      ({ initialInternalCtx with frameInvalidated := false } :
        ThrelteInternalContext).autoInvalidations ∧
    (invalidate { initialInternalCtx with frameInvalidated := false }).disposableObjects =
      ({ initialInternalCtx with frameInvalidated := false } :
        ThrelteInternalContext).disposableObjects ∧
    (invalidate { initialInternalCtx with frameInvalidated := false }).shouldDispose =
      ({ initialInternalCtx with frameInvalidated := false } :
        ThrelteInternalContext).shouldDispose ∧
    (advance { initialInternalCtx with frameInvalidated := false }).advance = true ∧
    (advance { initialInternalCtx with frameInvalidated := false }).frameInvalidated =
      ({ initialInternalCtx with frameInvalidated := false } :
        ThrelteInternalContext).frameInvalidated ∧
    (advance { initialInternalCtx with frameInvalidated := false }).autoInvalidations =
      ({ initialInternalCtx with frameInvalidated := false } :
        ThrelteInternalContext).autoInvalidations ∧
    (advance { initialInternalCtx with frameInvalidated := false }).disposableObjects =
      ({ initialInternalCtx with frameInvalidated := false } :
        ThrelteInternalContext).disposableObjects ∧
    (advance { initialInternalCtx with frameInvalidated := false }).shouldDispose =
      ({ initialInternalCtx with frameInvalidated := false } :
        ThrelteInternalContext).shouldDispose :=
  C9_invalidate_advance_isolated { initialInternalCtx with frameInvalidated := false }
    (by simp [shouldRender, initialInternalCtx]) (by simp [shouldRender, initialInternalCtx])

theorem mapSet_keys (m : List (Nat × Int)) (k : Nat) (v : Int) :
    (mapSet m k v).map Prod.fst =
      if m.any (fun p => p.1 == k) then m.map Prod.fst
      else m.map Prod.fst ++ [k] := by
  unfold mapSet
  by_cases h : m.any (fun p => p.1 == k)
  · simp only [h, if_true, List.map_map]
    refine List.map_congr_left ?_
    intro p _
    by_cases hp : p.1 = k <;> simp [hp]
  · simp [h]

theorem mapSet_nonneg (m : List (Nat × Int)) (k : Nat) (v : Int)
    (hm : ∀ p ∈ m, 0 ≤ p.2) (hv : 0 ≤ v) :
    ∀ p ∈ mapSet m k v, 0 ≤ p.2 := by
  intro p hp
  unfold mapSet at hp
  by_cases h : m.any (fun q => q.1 == k)
  · simp only [h, if_true, List.mem_map] at hp
    obtain ⟨q, hq, rfl⟩ := hp
    by_cases hqk : q.1 = k <;> simp [hqk, hv, hm q hq]
  · rw [if_neg h] at hp
    rcases List.mem_append.mp hp with hp | hp
    · exact hm p hp
    · rw [List.mem_singleton] at hp
      subst hp
      exact hv

theorem mapSet_inv (m : List (Nat × Int)) (k : Nat) (v : Int)
    (hm : DisposalInv m) (hv : 0 ≤ v) : DisposalInv (mapSet m k v) := by
  refine ⟨mapSet_nonneg m k v hm.1 hv, ?_⟩
  rw [mapSet_keys]
  by_cases h : m.any (fun p => p.1 == k)
  · simpa [h] using hm.2
  · rw [if_neg h]
    rw [List.nodup_append]
    refine ⟨hm.2, List.nodup_singleton k, ?_⟩
    intro a ha hak
    simp only [List.mem_singleton] at hak
    subst hak
    simp only [List.any_eq_true, beq_iff_eq, not_exists, not_and] at h
    simp only [List.mem_map] at ha
    obtain ⟨q, hq, hqa⟩ := ha
    exact h q hq hqa

theorem mapGet_nonneg (m : List (Nat × Int)) (k : Nat) (v : Int)
    (hm : ∀ p ∈ m, 0 ≤ p.2) (h : mapGet m k = some v) : 0 ≤ v := by
  unfold mapGet at h
  cases hfind : m.find? (fun p => p.1 == k) with
  | none => rw [hfind] at h; simp at h
  | some q =>
    rw [hfind] at h
    simp at h
    subst h
    exact hm q (List.mem_of_find?_eq_some hfind)

theorem addOne_inv (m : List (Nat × Int)) (obj : Nat) (hm : DisposalInv m) :
    DisposalInv (addOne m obj) := by
  unfold addOne
  by_cases h : truthyCount (mapGet m obj)
  · simp only [h, if_true]
    refine mapSet_inv m obj _ hm ?_
    cases hg : mapGet m obj with
    | none => simp [hg]
    | some v =>
      have := mapGet_nonneg m obj v hm.1 hg
      simp only [hg, Option.getD_some]
      omega
  · simp only [h, if_false]
    exact mapSet_inv m obj 1 hm (by omega)

theorem removeOne_inv (m : List (Nat × Int)) (obj : Nat) (hm : DisposalInv m) :
    DisposalInv (removeOne m obj) := by
  unfold removeOne
  by_cases h : truthyCount (mapGet m obj) && decide (0 < (mapGet m obj).getD 0)
  · simp only [h, if_true]
    refine mapSet_inv m obj _ hm ?_
    simp only [Bool.and_eq_true, decide_eq_true_eq] at h
    omega
  · simp only [h, if_false]
    exact hm

theorem foldl_addOne_inv (objects : List Nat) :
    ∀ m, DisposalInv m → DisposalInv (objects.foldl addOne m) := by
  induction objects with
  | nil => intro m hm; exact hm
  | cons o os ih =>
    intro m hm
    exact ih (addOne m o) (addOne_inv m o hm)

theorem foldl_removeOne_inv (objects : List Nat) :
    ∀ m, DisposalInv m → DisposalInv (objects.foldl removeOne m) := by
  induction objects with
  | nil => intro m hm; exact hm
  | cons o os ih =>
    intro m hm
    exact ih (removeOne m o) (removeOne_inv m o hm)

theorem applyDisposalOp_inv (ctx : ThrelteInternalContext) (op : DisposalOp)
    (hm : DisposalInv ctx.disposableObjects) :
    DisposalInv (applyDisposalOp ctx op).disposableObjects := by
  cases op with
  | add objects => exact foldl_addOne_inv objects _ hm
  | remove objects =>
    unfold applyDisposalOp removeDisposableObjects
    by_cases h : objects.length = 0
    · simpa [h] using hm
    · simpa [h] using foldl_removeOne_inv objects _ hm

theorem applyDisposalOps_inv (ops : List DisposalOp) :
    ∀ ctx, DisposalInv ctx.disposableObjects →
      DisposalInv (applyDisposalOps ctx ops).disposableObjects := by
  induction ops with
  | nil => intro ctx h; exact h
  | cons op ops ih =>
    intro ctx h
    exact ih (applyDisposalOp ctx op) (applyDisposalOp_inv ctx op h)

theorem mapSet_keys_superset (m : List (Nat × Int)) (k k' : Nat) (v : Int)
    (h : k' ∈ m.map Prod.fst) : k' ∈ (mapSet m k v).map Prod.fst := by
  rw [mapSet_keys]
  by_cases hc : m.any (fun p => p.1 == k) <;> simp [hc, h]

theorem addOne_keys_superset (m : List (Nat × Int)) (obj k : Nat)
    (h : k ∈ m.map Prod.fst) : k ∈ (addOne m obj).map Prod.fst := by
  unfold addOne
  by_cases hc : truthyCount (mapGet m obj) <;>
    simp only [hc, if_true, if_false] <;>
    exact mapSet_keys_superset m obj k _ h

theorem removeOne_keys_superset (m : List (Nat × Int)) (obj k : Nat)
    (h : k ∈ m.map Prod.fst) : k ∈ (removeOne m obj).map Prod.fst := by
  unfold removeOne
  by_cases hc : truthyCount (mapGet m obj) && decide (0 < (mapGet m obj).getD 0)
  · simp only [hc, if_true]
    exact mapSet_keys_superset m obj k _ h
  · simpa [hc] using h

theorem foldl_addOne_keys_superset (objects : List Nat) :
    ∀ m k, k ∈ m.map Prod.fst → k ∈ (objects.foldl addOne m).map Prod.fst := by
  induction objects with
  | nil => intro m k h; exact h
  | cons o os ih =>
    intro m k h
    exact ih (addOne m o) k (addOne_keys_superset m o k h)

theorem foldl_removeOne_keys_superset (objects : List Nat) :
    ∀ m k, k ∈ m.map Prod.fst → k ∈ (objects.foldl removeOne m).map Prod.fst := by
  induction objects with
  | nil => intro m k h; exact h
  | cons o os ih =>
    intro m k h
    exact ih (removeOne m o) k (removeOne_keys_superset m o k h)

theorem pairs_eq_of_nodup_keys (m : List (Nat × Int)) (hnd : (m.map Prod.fst).Nodup)
    (p q : Nat × Int) (hp : p ∈ m) (hq : q ∈ m) (h : p.1 = q.1) : p = q :=
  List.inj_on_of_nodup_map hnd hp hq h

theorem removeOne_preserves_zero (m : List (Nat × Int)) (obj : Nat)
    (hm : DisposalInv m) (p : Nat × Int) (hp : p ∈ m) (hz : p.2 = 0) :
    p ∈ removeOne m obj := by
  unfold removeOne
  by_cases hc : truthyCount (mapGet m obj) && decide (0 < (mapGet m obj).getD 0)
  · rw [if_pos hc]
    -- the decremented key cannot be the key of a zero-count entry
    cases hg : mapGet m obj with
    | none => simp [hg, truthyCount] at hc
    | some v =>
      have hpk : p.1 ≠ obj := by
        intro hpk
        rw [hg] at hc
        simp only [Bool.and_eq_true, decide_eq_true_eq, Option.getD_some] at hc
        unfold mapGet at hg
        cases hfind : m.find? (fun q => q.1 == obj) with
        | none => rw [hfind] at hg; simp at hg
        | some q =>
          rw [hfind] at hg
          simp at hg
          have hqmem := List.mem_of_find?_eq_some hfind
          have hqk : q.1 = obj := by simpa using List.find?_some hfind
          have hpq : p = q := pairs_eq_of_nodup_keys m hm.2 p q hp hqmem
            (by rw [hpk, hqk])
          rw [← hpq] at hg
          omega
      unfold mapSet
      by_cases hany : m.any (fun q => q.1 == obj)
      · rw [if_pos hany]
        exact List.mem_map.mpr ⟨p, hp, by simp [hpk]⟩
      · rw [if_neg hany]
        exact List.mem_append_left _ hp
  · rw [if_neg hc]
    exact hp

theorem foldl_removeOne_preserves_zero (objects : List Nat) :
    ∀ m, DisposalInv m → ∀ p ∈ m, p.2 = 0 → p ∈ objects.foldl removeOne m := by
  induction objects with
  | nil => intro m _ p hp _; exact hp
  | cons o os ih =>
    intro m hm p hp hz
    exact ih (removeOne m o) (removeOne_inv m o hm)
      p (removeOne_preserves_zero m o hm p hp hz) hz

/-- C10: starting from the freshly created context, after any sequence of
`addDisposableObjects` / `removeDisposableObjects` calls every count in the
disposal map is non-negative, neither mutator ever deletes a map entry
(`removeDisposableObjects` leaves zero-count entries entirely unchanged), and
only `dispose` removes entries: without `force` it deletes exactly the entries
whose count is zero (when `shouldDispose` allows it to run at all), and with
`force` it deletes every entry. -/
theorem C10_disposal_counts_invariant (ops : List DisposalOp) :
    (∀ p ∈ (applyDisposalOps initialInternalCtx ops).disposableObjects, 0 ≤ p.2) ∧
    (∀ objects k,
      k ∈ (applyDisposalOps initialInternalCtx ops).disposableObjects.map Prod.fst →
      k ∈ (removeDisposableObjects (applyDisposalOps initialInternalCtx ops)
            objects).disposableObjects.map Prod.fst ∧
      k ∈ (addDisposableObjects (applyDisposalOps initialInternalCtx ops)
            objects).disposableObjects.map Prod.fst) ∧
    (∀ objects p,
      p ∈ (applyDisposalOps initialInternalCtx ops).disposableObjects → p.2 = 0 →
      p ∈ (removeDisposableObjects (applyDisposalOps initialInternalCtx ops)
            objects).disposableObjects) ∧
    ((dispose (applyDisposalOps initialInternalCtx ops) false).disposableObjects =
      if (applyDisposalOps initialInternalCtx ops).shouldDispose then
        (applyDisposalOps initialInternalCtx ops).disposableObjects.filter
          (fun p => !(p.2 == 0))
      else (applyDisposalOps initialInternalCtx ops).disposableObjects) ∧
    ((dispose (applyDisposalOps initialInternalCtx ops) true).disposableObjects = []) := by
  have hinv : DisposalInv (applyDisposalOps initialInternalCtx ops).disposableObjects :=
    applyDisposalOps_inv ops initialInternalCtx (by constructor <;> simp [initialInternalCtx])
  set s := applyDisposalOps initialInternalCtx ops with hs
  refine ⟨hinv.1, ?_, ?_, ?_, ?_⟩
  · intro objects k hk
    constructor
    · unfold removeDisposableObjects
      by_cases h : objects.length = 0
      · simpa [h] using hk
      · simpa [h] using foldl_removeOne_keys_superset objects _ k hk
    · exact foldl_addOne_keys_superset objects _ k hk
  · intro objects p hp hz
    unfold removeDisposableObjects
    by_cases h : objects.length = 0
    · simpa [h] using hp
    · simpa [h] using foldl_removeOne_preserves_zero objects _ hinv p hp hz
  · unfold dispose
    by_cases h : s.shouldDispose <;> simp [h]
  · unfold dispose
    simp

theorem reachB_zero_eq (E : Nat → Nat → Bool) (nodes : List Nat) (u v : Nat) :
    reachB E nodes 0 u v = E u v := rfl

theorem reachB_succ_eq (E : Nat → Nat → Bool) (nodes : List Nat) (n u v : Nat) :
    reachB E nodes (n + 1) u v =
      (E u v || nodes.any fun w => E u w && reachB E nodes n w v) := rfl

theorem reachB_succ (E : Nat → Nat → Bool) (nodes : List Nat) :
    ∀ n u v, reachB E nodes n u v = true → reachB E nodes (n + 1) u v = true := by
  intro n
  induction n with
  | zero =>
    intro u v h
    rw [reachB_zero_eq] at h
    rw [reachB_succ_eq, Bool.or_eq_true]
    exact Or.inl h
  | succ n ih =>
    intro u v h
    rw [reachB_succ_eq, Bool.or_eq_true, List.any_eq_true] at h ⊢
    rcases h with h | ⟨w, hw, hand⟩
    · exact Or.inl h
    · rw [Bool.and_eq_true] at hand
      refine Or.inr ⟨w, hw, ?_⟩
      rw [Bool.and_eq_true]
      exact ⟨hand.1, ih w v hand.2⟩

theorem reachB_mono (E : Nat → Nat → Bool) (nodes : List Nat) {n m : Nat} (h : n ≤ m) :
    ∀ u v, reachB E nodes n u v = true → reachB E nodes m u v = true := by
  induction m, h using Nat.le_induction with
  | base => intro u v hr; exact hr
  | succ m hm ih => intro u v hr; exact reachB_succ E nodes m u v (ih u v hr)

theorem reachB_sound (E : Nat → Nat → Bool) (nodes : List Nat) :
    ∀ n u v, reachB E nodes n u v = true →
      Relation.TransGen (fun a b => E a b = true) u v := by
  intro n
  induction n with
  | zero =>
    intro u v h
    rw [reachB_zero_eq] at h
    exact Relation.TransGen.single h
  | succ n ih =>
    intro u v h
    rw [reachB_succ_eq, Bool.or_eq_true, List.any_eq_true] at h
    rcases h with h | ⟨w, _, hand⟩
    · exact Relation.TransGen.single h
    · rw [Bool.and_eq_true] at hand
      exact Relation.TransGen.head hand.1 (ih w v hand.2)

theorem stuck_has_cycle (E : Nat → Nat → Bool) (S : List Nat) (hS : S ≠ [])
    (hall : ∀ v ∈ S, ∃ u ∈ S, E u v = true) :
    ∃ k ∈ S, reachB E S S.length k k = true := by
  obtain ⟨s0, hs0⟩ := List.exists_mem_of_ne_nil S hS
  choose pick hpickmem hpickE using hall
  let F : {x // x ∈ S} → {x // x ∈ S} := fun x => ⟨pick x.1 x.2, hpickmem x.1 x.2⟩
  let g : Nat → {x // x ∈ S} := fun n => F^[n] ⟨s0, hs0⟩
  have hchain : ∀ n, E (g (n + 1)).1 (g n).1 = true := by
    intro n
    have hit : g (n + 1) = F (g n) := Function.iterate_succ_apply' F n ⟨s0, hs0⟩
    rw [hit]
    exact hpickE (g n).1 (g n).2
  have hreach : ∀ d i, reachB E S d (g (i + d + 1)).1 (g i).1 = true := by
    intro d
    induction d with
    | zero =>
      intro i
      rw [reachB_zero_eq]
      exact hchain i
    | succ d ih =>
      intro i
      rw [reachB_succ_eq, Bool.or_eq_true, List.any_eq_true]
      refine Or.inr ⟨(g (i + d + 1)).1, (g (i + d + 1)).2, ?_⟩
      rw [Bool.and_eq_true]
      exact ⟨hchain (i + d + 1), ih i⟩
  have hmaps : ∀ n ∈ Finset.range (S.toFinset.card + 1),
      (g n).1 ∈ S.toFinset := by
    intro n _
    exact List.mem_toFinset.mpr (g n).2
  have hcard : S.toFinset.card < (Finset.range (S.toFinset.card + 1)).card := by
    simp
  obtain ⟨i, hi, j, hj, hij, hgij⟩ :=
    Finset.exists_ne_map_eq_of_card_lt_of_maps_to hcard hmaps
  have main : ∀ i j, i < j → j ≤ S.length → (g i).1 = (g j).1 →
      ∃ k ∈ S, reachB E S S.length k k = true := by
    intro i j hlt hle heq
    refine ⟨(g i).1, (g i).2, ?_⟩
    have h1 : reachB E S (j - i - 1) (g j).1 (g i).1 = true := by
      have hr := hreach (j - i - 1) i
      have hj' : i + (j - i - 1) + 1 = j := by omega
      rwa [hj'] at hr
    have h2 : reachB E S S.length (g j).1 (g i).1 = true :=
      reachB_mono E S (by omega) _ _ h1
    rw [← heq] at h2
    exact h2
  have hjle : j ≤ S.length :=
    le_trans (Nat.lt_succ_iff.mp (Finset.mem_range.mp hj)) (List.toFinset_card_le S)
  have hile : i ≤ S.length :=
    le_trans (Nat.lt_succ_iff.mp (Finset.mem_range.mp hi)) (List.toFinset_card_le S)
  rcases Nat.lt_or_ge i j with hlt | hge
  · exact main i j hlt hjle hgij
  · have hlt : j < i := lt_of_le_of_ne hge (fun e => hij e.symm)
    exact main j i hlt hile hgij.symm

theorem kahnAux_nil_eq (items : List SchedItem) (fuel : Nat) :
    kahnAux items fuel [] = Except.ok [] := by
  cases fuel <;> rfl

theorem kahnAux_zero_cons_eq (items : List SchedItem) (r : Nat) (rs : List Nat) :
    kahnAux items 0 (r :: rs) = Except.error (cycleKey items (r :: rs)) := rfl

theorem kahnAux_succ_cons_eq (items : List SchedItem) (fuel : Nat) (r : Nat)
    (rs : List Nat) :
    kahnAux items (fuel + 1) (r :: rs) =
      match (r :: rs).find? (fun v => !hasIncoming items (r :: rs) v) with
      | some v =>
        Except.map (fun order => v :: order) (kahnAux items fuel ((r :: rs).erase v))
      | none => Except.error (cycleKey items (r :: rs)) := rfl

theorem kahnAux_succ_cons_some (items : List SchedItem) (fuel : Nat) (r : Nat)
    (rs : List Nat) (v : Nat)
    (hfind : (r :: rs).find? (fun w => !hasIncoming items (r :: rs) w) = some v) :
    kahnAux items (fuel + 1) (r :: rs) =
      Except.map (fun order => v :: order) (kahnAux items fuel ((r :: rs).erase v)) := by
  rw [kahnAux_succ_cons_eq, hfind]

theorem kahnAux_succ_cons_none (items : List SchedItem) (fuel : Nat) (r : Nat)
    (rs : List Nat)
    (hfind : (r :: rs).find? (fun w => !hasIncoming items (r :: rs) w) = none) :
    kahnAux items (fuel + 1) (r :: rs) = Except.error (cycleKey items (r :: rs)) := by
  rw [kahnAux_succ_cons_eq, hfind]

theorem stuck_cycleKey (items : List SchedItem) (r : Nat) (rs : List Nat)
    (hnone : (r :: rs).find? (fun v => !hasIncoming items (r :: rs) v) = none) :
    cycleKey items (r :: rs) ∈ (r :: rs) ∧
      Relation.TransGen (fun u v => hasEdge items u v = true)
        (cycleKey items (r :: rs)) (cycleKey items (r :: rs)) := by
  have hall : ∀ v ∈ (r :: rs), ∃ u ∈ (r :: rs), hasEdge items u v = true := by
    intro v hv
    have h1 := List.find?_eq_none.mp hnone v hv
    have h2 : hasIncoming items (r :: rs) v = true := by
      simpa using h1
    unfold hasIncoming at h2
    rw [List.any_eq_true] at h2
    exact h2
  obtain ⟨k0, hk0, hr0⟩ := stuck_has_cycle (hasEdge items) (r :: rs) (by simp) hall
  have hfind : ∃ k1, (r :: rs).find?
      (fun k => reachB (hasEdge items) (r :: rs) (r :: rs).length k k) = some k1 := by
    cases hf : (r :: rs).find?
        (fun k => reachB (hasEdge items) (r :: rs) (r :: rs).length k k) with
    | none => exact absurd hr0 (List.find?_eq_none.mp hf k0 hk0)
    | some k1 => exact ⟨k1, rfl⟩
  obtain ⟨k1, hk1⟩ := hfind
  have hck : cycleKey items (r :: rs) = k1 := by
    unfold cycleKey
    rw [hk1]
  rw [hck]
  have hp1 : reachB (hasEdge items) (r :: rs) (r :: rs).length k1 k1 = true := by
    simpa using List.find?_some hk1
  exact ⟨List.mem_of_find?_eq_some hk1,
    reachB_sound (hasEdge items) (r :: rs) _ k1 k1 hp1⟩

theorem kahnAux_error_spec (items : List SchedItem) :
    ∀ fuel remaining k, remaining.length ≤ fuel →
      kahnAux items fuel remaining = Except.error k →
      k ∈ remaining ∧
        Relation.TransGen (fun u v => hasEdge items u v = true) k k := by
  intro fuel
  induction fuel with
  | zero =>
    intro remaining k hle herr
    cases remaining with
    | nil => rw [kahnAux_nil_eq] at herr; exact absurd herr (by simp)
    | cons r rs => simp at hle
  | succ fuel ih =>
    intro remaining k hle herr
    cases remaining with
    | nil => rw [kahnAux_nil_eq] at herr; exact absurd herr (by simp)
    | cons r rs =>
      cases hfind : (r :: rs).find? (fun v => !hasIncoming items (r :: rs) v) with
      | some v =>
        rw [kahnAux_succ_cons_some items fuel r rs v hfind] at herr
        have hv : v ∈ r :: rs := List.mem_of_find?_eq_some hfind
        have herr' : kahnAux items fuel ((r :: rs).erase v) = Except.error k := by
          cases hrec : kahnAux items fuel ((r :: rs).erase v) with
          | ok o => rw [hrec] at herr; exact absurd herr (by simp [Except.map])
          | error k' =>
            rw [hrec] at herr
            simp only [Except.map, Except.error.injEq] at herr
            rw [herr]
        have hlen : ((r :: rs).erase v).length ≤ fuel := by
          rw [List.length_erase_of_mem hv]
          simp only [List.length_cons] at hle ⊢
          omega
        obtain ⟨hmem, htg⟩ := ih ((r :: rs).erase v) k hlen herr'
        exact ⟨List.mem_of_mem_erase hmem, htg⟩
      | none =>
        rw [kahnAux_succ_cons_none items fuel r rs hfind] at herr
        have hck := stuck_cycleKey items r rs hfind
        have hkk : cycleKey items (r :: rs) = k := by
          simpa using herr
        rw [hkk] at hck
        exact hck

theorem kahnAux_ok_perm (items : List SchedItem) :
    ∀ fuel remaining order, kahnAux items fuel remaining = Except.ok order →
      order.Perm remaining := by
  intro fuel
  induction fuel with
  | zero =>
    intro remaining order h
    cases remaining with
    | nil =>
      rw [kahnAux_nil_eq] at h
      simp only [Except.ok.injEq] at h
      subst h
      exact List.Perm.refl _
    | cons r rs =>
      rw [kahnAux_zero_cons_eq] at h
      exact absurd h (by simp)
  | succ fuel ih =>
    intro remaining order h
    cases remaining with
    | nil =>
      rw [kahnAux_nil_eq] at h
      simp only [Except.ok.injEq] at h
      subst h
      exact List.Perm.refl _
    | cons r rs =>
      cases hfind : (r :: rs).find? (fun v => !hasIncoming items (r :: rs) v) with
      | some v =>
        rw [kahnAux_succ_cons_some items fuel r rs v hfind] at h
        cases hrec : kahnAux items fuel ((r :: rs).erase v) with
        | error k => rw [hrec] at h; exact absurd h (by simp [Except.map])
        | ok rest =>
          rw [hrec] at h
          simp only [Except.map, Except.ok.injEq] at h
          have hv : v ∈ r :: rs := List.mem_of_find?_eq_some hfind
          have hperm := ih ((r :: rs).erase v) rest hrec
          rw [← h]
          exact (hperm.cons v).trans (List.perm_cons_erase hv).symm
      | none =>
        rw [kahnAux_succ_cons_none items fuel r rs hfind] at h
        exact absurd h (by simp)

theorem kahnAux_ok_of_acyclic (items : List SchedItem)
    (hac : ∀ a, ¬ Relation.TransGen (fun u v => hasEdge items u v = true) a a) :
    ∀ fuel remaining, remaining.length ≤ fuel →
      ∃ order, kahnAux items fuel remaining = Except.ok order := by
  intro fuel
  induction fuel with
  | zero =>
    intro remaining hle
    cases remaining with
    | nil => exact ⟨[], kahnAux_nil_eq items 0⟩
    | cons r rs => simp at hle
  | succ fuel ih =>
    intro remaining hle
    cases remaining with
    | nil => exact ⟨[], kahnAux_nil_eq items (fuel + 1)⟩
    | cons r rs =>
      cases hfind : (r :: rs).find? (fun v => !hasIncoming items (r :: rs) v) with
      | some v =>
        have hv : v ∈ r :: rs := List.mem_of_find?_eq_some hfind
        have hlen : ((r :: rs).erase v).length ≤ fuel := by
          rw [List.length_erase_of_mem hv]
          simp only [List.length_cons] at hle ⊢
          omega
        obtain ⟨order, ho⟩ := ih ((r :: rs).erase v) hlen
        refine ⟨v :: order, ?_⟩
        rw [kahnAux_succ_cons_some items fuel r rs v hfind, ho]
        rfl
      | none =>
        exfalso
        obtain ⟨_, htg⟩ := stuck_cycleKey items r rs hfind
        exact hac _ htg

theorem kahnAux_ok_edge_order (items : List SchedItem) :
    ∀ fuel remaining order, remaining.Nodup →
      kahnAux items fuel remaining = Except.ok order →
      ∀ u v, hasEdge items u v = true → u ∈ remaining → v ∈ remaining →
        order.indexOf u < order.indexOf v := by
  intro fuel
  induction fuel with
  | zero =>
    intro remaining order _ h u v _ hu _
    cases remaining with
    | nil => simp at hu
    | cons r rs =>
      rw [kahnAux_zero_cons_eq] at h
      exact absurd h (by simp)
  | succ fuel ih =>
    intro remaining order hnd h u v hedge hu hv
    cases remaining with
    | nil => simp at hu
    | cons r rs =>
      cases hfind : (r :: rs).find? (fun w => !hasIncoming items (r :: rs) w) with
      | some v0 =>
        rw [kahnAux_succ_cons_some items fuel r rs v0 hfind] at h
        cases hrec : kahnAux items fuel ((r :: rs).erase v0) with
        | error k => rw [hrec] at h; exact absurd h (by simp [Except.map])
        | ok rest =>
          rw [hrec] at h
          simp only [Except.map, Except.ok.injEq] at h
          subst h
          have hp := List.find?_some hfind
          have hnoin : hasIncoming items (r :: rs) v0 = false := by
            simpa using hp
          have hvne : v ≠ v0 := by
            intro e
            subst e
            unfold hasIncoming at hnoin
            rw [List.any_eq_false] at hnoin
            exact hnoin u hu hedge
          by_cases hue : u = v0
          · subst hue
            rw [List.indexOf_cons_self]
            rw [List.indexOf_cons_ne rest (fun e => hvne e.symm)]
            exact Nat.succ_pos _
          · have hu' : u ∈ (r :: rs).erase v0 := (List.mem_erase_of_ne hue).mpr hu
            have hv' : v ∈ (r :: rs).erase v0 := (List.mem_erase_of_ne hvne).mpr hv
            have hih := ih ((r :: rs).erase v0) rest (hnd.erase v0) hrec u v hedge hu' hv'
            rw [List.indexOf_cons_ne rest (fun e => hue e.symm),
              List.indexOf_cons_ne rest (fun e => hvne e.symm)]
            exact Nat.succ_lt_succ hih
      | none =>
        rw [kahnAux_succ_cons_none items fuel r rs hfind] at h
        exact absurd h (by simp)

theorem find?_first_le (p : Nat → Bool) :
    ∀ (l : List Nat) (v x : Nat), l.find? p = some v → p x = true → x ∈ l →
      l.indexOf v ≤ l.indexOf x := by
  intro l
  induction l with
  | nil => intro v x h _ _; simp at h
  | cons a t ih =>
    intro v x hfind hpx hx
    by_cases hpa : p a = true
    · have hva : v = a := by
        rw [List.find?_cons_of_pos t hpa] at hfind
        simpa using hfind.symm
      subst hva
      rw [List.indexOf_cons_self]
      exact Nat.zero_le _
    · have hfind' : t.find? p = some v := by
        rwa [List.find?_cons_of_neg t hpa] at hfind
      have hpv := List.find?_some hfind'
      have hav : a ≠ v := fun e => hpa (by rw [e]; exact hpv)
      have hax : a ≠ x := fun e => hpa (by rw [e]; exact hpx)
      have hxt : x ∈ t := by
        rcases List.mem_cons.mp hx with e | e
        · exact absurd e.symm hax
        · exact e
      rw [List.indexOf_cons_ne t hav, List.indexOf_cons_ne t hax]
      exact Nat.succ_le_succ (ih v x hfind' hpx hxt)

theorem indexOf_erase_lt (v : Nat) :
    ∀ (l : List Nat) (x y : Nat), x ≠ v → y ≠ v →
      l.indexOf x < l.indexOf y →
      (l.erase v).indexOf x < (l.erase v).indexOf y := by
  intro l
  induction l with
  | nil => intro x y _ _ hlt; simp at hlt
  | cons a t ih =>
    intro x y hxv hyv hlt
    by_cases hav : a = v
    · subst hav
      rw [List.erase_cons_head]
      have hax : a ≠ x := fun e => hxv e.symm
      have hay : a ≠ y := fun e => hyv e.symm
      rw [List.indexOf_cons_ne t hax, List.indexOf_cons_ne t hay] at hlt
      exact Nat.lt_of_succ_lt_succ hlt
    · rw [List.erase_cons_tail (by simp [hav])]
      by_cases hxa : x = a
      · subst hxa
        have hxy : x ≠ y := by
          intro e
          rw [← e] at hlt
          exact lt_irrefl _ hlt
        rw [List.indexOf_cons_self]
        rw [List.indexOf_cons_ne (t.erase v) hxy]
        exact Nat.succ_pos _
      · by_cases hya : y = a
        · exfalso
          subst hya
          rw [List.indexOf_cons_self] at hlt
          exact Nat.not_lt_zero _ hlt
        · have hax : a ≠ x := fun e => hxa e.symm
          have hay : a ≠ y := fun e => hya e.symm
          rw [List.indexOf_cons_ne t hax, List.indexOf_cons_ne t hay] at hlt
          rw [List.indexOf_cons_ne (t.erase v) hax, List.indexOf_cons_ne (t.erase v) hay]
          exact Nat.succ_lt_succ (ih x y hxv hyv (Nat.lt_of_succ_lt_succ hlt))

theorem kahnAux_ok_stable (items : List SchedItem) (x y : Nat)
    (hnoin : ∀ u ∈ keys items, hasEdge items u x = false) :
    ∀ fuel remaining order, remaining.Nodup →
      (∀ a ∈ remaining, a ∈ keys items) →
      kahnAux items fuel remaining = Except.ok order →
      x ∈ remaining → y ∈ remaining →
      remaining.indexOf x < remaining.indexOf y →
      order.indexOf x < order.indexOf y := by
  intro fuel
  induction fuel with
  | zero =>
    intro remaining order hnd hsub h hx hy hreg
    cases remaining with
    | nil => simp at hx
    | cons r rs =>
      rw [kahnAux_zero_cons_eq] at h
      exact absurd h (by simp)
  | succ fuel ih =>
    intro remaining order hnd hsub h hx hy hreg
    cases remaining with
    | nil => simp at hx
    | cons r rs =>
      cases hfind : (r :: rs).find? (fun w => !hasIncoming items (r :: rs) w) with
      | some v0 =>
        rw [kahnAux_succ_cons_some items fuel r rs v0 hfind] at h
        cases hrec : kahnAux items fuel ((r :: rs).erase v0) with
        | error k => rw [hrec] at h; exact absurd h (by simp [Except.map])
        | ok rest =>
          rw [hrec] at h
          simp only [Except.map, Except.ok.injEq] at h
          subst h
          have hxy : x ≠ y := by
            intro e
            rw [e] at hreg
            exact lt_irrefl _ hreg
          have hpx : (!hasIncoming items (r :: rs) x) = true := by
            have hfalse : hasIncoming items (r :: rs) x = false := by
              unfold hasIncoming
              rw [List.any_eq_false]
              intro u hu
              rw [hnoin u (hsub u hu)]
              simp
            rw [hfalse]
            rfl
          have hle := find?_first_le _ (r :: rs) v0 x hfind hpx hx
          by_cases hv0x : v0 = x
          · subst hv0x
            rw [List.indexOf_cons_self]
            rw [List.indexOf_cons_ne rest hxy]
            exact Nat.succ_pos _
          · have hlt : (r :: rs).indexOf v0 < (r :: rs).indexOf x := by
              rcases lt_or_eq_of_le hle with h' | h'
              · exact h'
              · exact absurd
                  ((List.indexOf_inj (List.mem_of_find?_eq_some hfind) hx).mp h') hv0x
            have hv0y : v0 ≠ y := by
              intro e
              rw [e] at hlt
              omega
            have hx' : x ∈ (r :: rs).erase v0 :=
              (List.mem_erase_of_ne (fun e => hv0x e.symm)).mpr hx
            have hy' : y ∈ (r :: rs).erase v0 :=
              (List.mem_erase_of_ne (fun e => hv0y e.symm)).mpr hy
            have hreg' := indexOf_erase_lt v0 (r :: rs) x y
              (fun e => hv0x e.symm) (fun e => hv0y e.symm) hreg
            have hsub' : ∀ a ∈ (r :: rs).erase v0, a ∈ keys items :=
              fun a ha => hsub a (List.mem_of_mem_erase ha)
            have hih := ih ((r :: rs).erase v0) rest (hnd.erase v0) hsub' hrec hx' hy' hreg'
            rw [List.indexOf_cons_ne rest hv0x, List.indexOf_cons_ne rest hv0y]
            exact Nat.succ_lt_succ hih
      | none =>
        rw [kahnAux_succ_cons_none items fuel r rs hfind] at h
        exact absurd h (by simp)

theorem hasEdge_mem (items : List SchedItem) (u v : Nat)
    (h : hasEdge items u v = true) : u ∈ keys items ∧ v ∈ keys items := by
  unfold hasEdge at h
  rw [Bool.or_eq_true, List.any_eq_true, List.any_eq_true] at h
  rcases h with ⟨it, hit, hcond⟩ | ⟨it, hit, hcond⟩
  · simp only [Bool.and_eq_true, beq_iff_eq] at hcond
    obtain ⟨⟨hkey, _⟩, hcont⟩ := hcond
    refine ⟨by simpa using hcont, ?_⟩
    rw [← hkey]
    exact List.mem_map.mpr ⟨it, hit, rfl⟩
  · simp only [Bool.and_eq_true, beq_iff_eq] at hcond
    obtain ⟨⟨hkey, _⟩, hcont⟩ := hcond
    refine ⟨?_, by simpa using hcont⟩
    rw [← hkey]
    exact List.mem_map.mpr ⟨it, hit, rfl⟩

theorem hasEdge_of_after (items : List SchedItem) (A : SchedItem) (hA : A ∈ items)
    (b : Nat) (hb : b ∈ A.after) (hbk : b ∈ keys items) :
    hasEdge items b A.key = true := by
  unfold hasEdge
  rw [Bool.or_eq_true]
  refine Or.inl (List.any_eq_true.mpr ⟨A, hA, ?_⟩)
  simp [hb, hbk]

theorem hasEdge_of_before (items : List SchedItem) (A : SchedItem) (hA : A ∈ items)
    (b : Nat) (hb : b ∈ A.before) (hbk : b ∈ keys items) :
    hasEdge items A.key b = true := by
  unfold hasEdge
  rw [Bool.or_eq_true]
  refine Or.inr (List.any_eq_true.mpr ⟨A, hA, ?_⟩)
  simp [hb, hbk]

/-- C3: on a collection with distinct keys whose before/after constraint graph
is acyclic, order resolution succeeds with a sequence that contains every key
exactly once and in which, for every constraint "A after B" naming a
registered B, the key of B precedes the key of A, and for every "A before B"
naming a registered B, the key of A precedes the key of B. -/
theorem C3_resolve_topological (items : List SchedItem)
    (hnd : (keys items).Nodup)
    (hac : ∀ k, ¬ Relation.TransGen (fun u v => hasEdge items u v = true) k k) :
    ∃ order, resolve items = Except.ok order ∧
      order.Perm (keys items) ∧
      (∀ k ∈ keys items, order.count k = 1) ∧
      (∀ A ∈ items, ∀ b ∈ A.after, b ∈ keys items →
        order.indexOf b < order.indexOf A.key) ∧
      (∀ A ∈ items, ∀ b ∈ A.before, b ∈ keys items →
        order.indexOf A.key < order.indexOf b) := by
  obtain ⟨order, ho⟩ :=
    kahnAux_ok_of_acyclic items hac (keys items).length (keys items) le_rfl
  have ho' : resolve items = Except.ok order := ho
  refine ⟨order, ho', kahnAux_ok_perm items _ _ _ ho, ?_, ?_, ?_⟩
  · intro k hk
    rw [(kahnAux_ok_perm items _ _ _ ho).count_eq]
    exact List.count_eq_one_of_mem hnd hk
  · intro A hA b hb hbk
    exact kahnAux_ok_edge_order items _ _ _ hnd ho b A.key
      (hasEdge_of_after items A hA b hb hbk) hbk (List.mem_map.mpr ⟨A, hA, rfl⟩)
  · intro A hA b hb hbk
    exact kahnAux_ok_edge_order items _ _ _ hnd ho A.key b
      (hasEdge_of_before items A hA b hb hbk) (List.mem_map.mpr ⟨A, hA, rfl⟩) hbk

theorem exC3_edge_shape (u v : Nat) (h : hasEdge exC3 u v = true) :
    u = 1 ∧ v = 2 := by
  simp [hasEdge, keys, exC3] at h
  omega

theorem exC3_acyclic :
    ∀ k, ¬ Relation.TransGen (fun u v => hasEdge exC3 u v = true) k k := by
  have hshape : ∀ u v, Relation.TransGen (fun a b => hasEdge exC3 a b = true) u v →
      u = 1 ∧ v = 2 := by
    intro u v h
    induction h with
    | single he => exact exC3_edge_shape _ _ he
    | tail hab hbc ih =>
      have h2 := exC3_edge_shape _ _ hbc
      omega
  intro k hk
  have := hshape k k hk
  omega

/-- Witness for C3 at the two-task example. -/
theorem C3_resolve_topological_witness :
    ∃ order, resolve exC3 = Except.ok order ∧
      order.Perm (keys exC3) ∧
      (∀ k ∈ keys exC3, order.count k = 1) ∧
      (∀ A ∈ exC3, ∀ b ∈ A.after, b ∈ keys exC3 →
        order.indexOf b < order.indexOf A.key) ∧
      (∀ A ∈ exC3, ∀ b ∈ A.before, b ∈ keys exC3 →
        order.indexOf A.key < order.indexOf b) :=
  C3_resolve_topological exC3 (by decide) exC3_acyclic

/-- C4: when the constraint graph has a cycle, resolution fails with an error
key that belongs to the collection and genuinely participates in a cycle, and
resolution against a cache keeps the previously cached order unchanged. -/
theorem C4_cycle_error (items : List SchedItem)
    (hnd : (keys items).Nodup)
    (hcyc : ∃ k, Relation.TransGen (fun u v => hasEdge items u v = true) k k) :
    ∃ ke, resolve items = Except.error ke ∧ ke ∈ keys items ∧
      Relation.TransGen (fun u v => hasEdge items u v = true) ke ke ∧
      ∀ cached, resolveWithCache items cached = (cached, some ke) := by
  obtain ⟨k, hk⟩ := hcyc
  cases hres : resolve items with
  | ok order =>
    exfalso
    have hres' : kahnAux items (keys items).length (keys items) = Except.ok order := hres
    have hedgeord := kahnAux_ok_edge_order items _ _ _ hnd hres'
    have hlt : ∀ a b, Relation.TransGen (fun u v => hasEdge items u v = true) a b →
        order.indexOf a < order.indexOf b := by
      intro a b htg
      induction htg with
      | single he =>
        exact hedgeord _ _ he (hasEdge_mem items _ _ he).1 (hasEdge_mem items _ _ he).2
      | tail hab hbc ih =>
        exact lt_trans ih
          (hedgeord _ _ hbc (hasEdge_mem items _ _ hbc).1 (hasEdge_mem items _ _ hbc).2)
    exact lt_irrefl _ (hlt k k hk)
  | error ke =>
    have hres' : kahnAux items (keys items).length (keys items) = Except.error ke := hres
    obtain ⟨hmem, htg⟩ :=
      kahnAux_error_spec items (keys items).length (keys items) ke le_rfl hres'
    refine ⟨ke, rfl, hmem, htg, ?_⟩
    intro cached
    unfold resolveWithCache
    rw [hres]

/-- Witness for C4 at the two-task cycle. -/
theorem C4_cycle_error_witness :
    ∃ ke, resolve exC4 = Except.error ke ∧ ke ∈ keys exC4 ∧
      Relation.TransGen (fun u v => hasEdge exC4 u v = true) ke ke ∧
      ∀ cached, resolveWithCache exC4 cached = (cached, some ke) :=
  C4_cycle_error exC4 (by decide)
    ⟨1, Relation.TransGen.tail
      (Relation.TransGen.single (show hasEdge exC4 1 2 = true by decide))
      (show hasEdge exC4 2 1 = true by decide)⟩

theorem exC5_edge_shape (u v : Nat) (h : hasEdge exC5 u v = true) :
    u = 3 ∧ v = 1 := by
  simp [hasEdge, keys, exC5] at h
  omega

theorem exC5_tg_shape (u v : Nat)
    (h : Relation.TransGen (fun a b => hasEdge exC5 a b = true) u v) :
    u = 3 ∧ v = 1 := by
  induction h with
  | single he => exact exC5_edge_shape _ _ he
  | tail hab hbc ih =>
    have h2 := exC5_edge_shape _ _ hbc
    omega

/-- C5 counterexample: keys 1 and 2 of `exC5` have no ordering relationship,
directly or transitively, and key 1 is registered first, yet the resolved
order places key 2 before key 1 — so an unrelated pair does not, in general,
keep its registration order. -/
theorem C5_stability_counterexample :
    (¬ Relation.TransGen (fun u v => hasEdge exC5 u v = true) 1 2) ∧
    (¬ Relation.TransGen (fun u v => hasEdge exC5 u v = true) 2 1) ∧
    (keys exC5).indexOf 1 < (keys exC5).indexOf 2 ∧
    resolve exC5 = Except.ok [2, 3, 1] ∧
    ([2, 3, 1] : List Nat).indexOf 2 < ([2, 3, 1] : List Nat).indexOf 1 := by
  refine ⟨?_, ?_, by decide, by rfl, by decide⟩
  · intro h
    have := exC5_tg_shape _ _ h
    omega
  · intro h
    have := exC5_tg_shape _ _ h
    omega

/-- C5 amended: registration order is preserved for a pair whenever no
registered item is constrained to precede the earlier-registered member of
the pair (in particular, a fully unconstrained collection resolves to exact
registration order, so removing an item and re-registering it moves it to the
end); without that proviso an unrelated pair may be reordered. -/
theorem C5_stable_amended (items : List SchedItem) (x y : Nat)
    (hnd : (keys items).Nodup)
    (hx : x ∈ keys items) (hy : y ∈ keys items)
    (hnoin : ∀ u ∈ keys items, hasEdge items u x = false)
    (hreg : (keys items).indexOf x < (keys items).indexOf y)
    (order : List Nat) (hres : resolve items = Except.ok order) :
    order.indexOf x < order.indexOf y :=
  kahnAux_ok_stable items x y hnoin (keys items).length (keys items) order hnd
    (fun _ ha => ha) hres hx hy hreg

/-- Witness for the amended C5 at the re-add scenario: the resolved order is
the registration order [1, 3, 2], so 1 still precedes 2. -/
theorem C5_stable_amended_witness :
    ([1, 3, 2] : List Nat).indexOf 1 < ([1, 3, 2] : List Nat).indexOf 2 :=
  C5_stable_amended exC5w 1 2 (by decide) (by decide) (by decide)
    (by decide) (by decide) [1, 3, 2] (by rfl)

end Threlte
